import Mathlib

/-!
Shallow embedding of the transform / animation core of the CG-UFPel-Rust
repository (`src/model_pos/{mod,animation,config,curve}.rs`, `src/camera.rs`).

Machine floats (`f32`) are modelled as exact rationals (`ℚ`): the spec states
its numeric properties "within floating-point tolerance", i.e. about the ideal
real-number semantics of the code, which the rational embedding captures
exactly.  The only transcendental ingredients — the cosine/sine pair produced
by the cgmath `from_angle_*` constructors and the external spline / look-at
routines of the `splines` and `cgmath` crates — are abstracted as explicit
parameters (a `(c, s)` pair constrained by `c² + s² = 1`, a sampling function,
a look-rotation function); everything written in the repository itself is
translated literally.
-/

set_option autoImplicit false

namespace CG

/-- Three-component vector, modelling `cgmath::Vector3<f32>` with exact rationals. -/
structure Vec3 where
  x : ℚ
  y : ℚ
  z : ℚ
  deriving DecidableEq, Repr

namespace Vec3

def add (a b : Vec3) : Vec3 := ⟨a.x + b.x, a.y + b.y, a.z + b.z⟩

def sub (a b : Vec3) : Vec3 := ⟨a.x - b.x, a.y - b.y, a.z - b.z⟩

def neg (a : Vec3) : Vec3 := ⟨-a.x, -a.y, -a.z⟩

/-- Rust `v * k` for a scalar `k` (cgmath `Vector3 * f32`). -/
def smul (a : Vec3) (k : ℚ) : Vec3 := ⟨a.x * k, a.y * k, a.z * k⟩

/-- Cross product, as in `cgmath::Vector3::cross`. -/
def cross (a b : Vec3) : Vec3 :=
  ⟨a.y * b.z - a.z * b.y, a.z * b.x - a.x * b.z, a.x * b.y - a.y * b.x⟩

/-- Dot product. -/
def dot (a b : Vec3) : ℚ := a.x * b.x + a.y * b.y + a.z * b.z

/-- Squared Euclidean norm. -/
def norm2 (a : Vec3) : ℚ := a.dot a

instance : Add Vec3 := ⟨Vec3.add⟩
instance : Sub Vec3 := ⟨Vec3.sub⟩
instance : Neg Vec3 := ⟨Vec3.neg⟩

def zero : Vec3 := ⟨0, 0, 0⟩

end Vec3

/-- Rust `cgmath::Quaternion<f32>`: scalar part `s` and vector part `v`
(the `Quaternion::from_sv(s, v)` layout used by the repository). -/
structure Quat where
  s : ℚ
  v : Vec3
  deriving DecidableEq, Repr

namespace Quat

/-- Rust `Quaternion::from_sv`. -/
def from_sv (s : ℚ) (v : Vec3) : Quat := ⟨s, v⟩

/-- Hamilton product, as implemented by the cgmath `Mul` for quaternions. -/
def mul (a b : Quat) : Quat :=
  ⟨a.s * b.s - a.v.dot b.v, (b.v.smul a.s) + (a.v.smul b.s) + a.v.cross b.v⟩

instance : Mul Quat := ⟨Quat.mul⟩

/-- cgmath `Quaternion::from_angle_x(θ)` is `⟨cos(θ/2), (sin(θ/2), 0, 0)⟩`.
The trigonometric evaluation is the only non-rational step, so the embedding
takes the cosine/sine pair `(c, s)` of the half-angle as parameters; a genuine
pair satisfies `c² + s² = 1`. -/
def from_angle_x (c s : ℚ) : Quat := ⟨c, ⟨s, 0, 0⟩⟩

/-- cgmath `Quaternion::from_angle_y(θ)` with `(c, s)` the half-angle
cosine/sine pair. -/
def from_angle_y (c s : ℚ) : Quat := ⟨c, ⟨0, s, 0⟩⟩

/-- cgmath `Quaternion::from_angle_z(θ)` with `(c, s)` the half-angle
cosine/sine pair. -/
def from_angle_z (c s : ℚ) : Quat := ⟨c, ⟨0, 0, s⟩⟩

/-- The cgmath `Mul<Vector3> for Quaternion` (the rotation action):
`let tmp = self.v.cross(vec) + (vec * self.s); vec + (self.v.cross(tmp) * 2)`. -/
def rotate_vector (q : Quat) (vec : Vec3) : Vec3 :=
  let tmp := q.v.cross vec + vec.smul q.s
  vec + (q.v.cross tmp).smul 2

end Quat

/-- The `Command` enum of `src/model_pos/mod.rs`. -/
inductive Command
  | ScaleU | ScaleD
  | SlideXF | SlideXB | SlideYF | SlideYB | SlideZF | SlideZB
  | CurveXF | CurveXB | CurveYF | CurveYB | CurveZF | CurveZB
  | RotateXF | RotateXB | RotateYF | RotateYB | RotateZF | RotateZB
  deriving DecidableEq, Repr

/-- The `Movement` enum of `src/model_pos/mod.rs`. -/
inductive Movement
  | ForwardX | BackwardX | ForwardY | BackwardY | ForwardZ | BackwardZ
  deriving DecidableEq, Repr

/-- Rust `Animation` (`src/model_pos/animation.rs`): playback flag and the
command queue of `(Command, remaining duration)` pairs. -/
structure Animation where
  is_running : Bool
  command_pool : List (Command × ℚ)
  deriving DecidableEq, Repr

namespace Animation

/-- Rust `Animation::start`: a no-op while running, otherwise installs the new
script and raises `is_running`. -/
def start (a : Animation) (cmds : List (Command × ℚ)) : Animation :=
  if a.is_running then a else { is_running := true, command_pool := cmds }

/-- The `for (c, t) in &mut self.command_pool` loop of `Animation::step`:
returns the emitted `(command, allotted duration)` list and the updated pool.
If the frame budget fits inside the front entry (`delta_time <= *t`) the entry
absorbs it and the walk stops; otherwise the whole remaining duration of the entry
is emitted, zeroed out, and the walk continues with the reduced budget. -/
def stepGo (delta_time : ℚ) : List (Command × ℚ) → List (Command × ℚ) × List (Command × ℚ)
  | [] => ([], [])
  | (c, t) :: rest =>
    if delta_time ≤ t then
      ([(c, delta_time)], (c, t - delta_time) :: rest)
    else
      let r := stepGo (delta_time - t) rest
      ((c, t) :: r.1, (c, 0) :: r.2)

/-- Rust `Animation::consume`: drop every pool entry whose remaining duration is
not strictly positive (`filter(|(_, t)| *t > 0.)`). -/
def consume (a : Animation) : Animation :=
  { a with command_pool := a.command_pool.filter (fun x => decide (0 < x.2)) }

/-- Rust `Animation::stop`. -/
def stop (_a : Animation) : Animation :=
  { is_running := false, command_pool := [] }

/-- Rust `Animation::step`: on an empty pool, stop and return nothing; otherwise
walk the pool with `stepGo` and purge exhausted entries with `consume`.
Returns the emitted list together with the post-call state. -/
def step (a : Animation) (delta_time : ℚ) : List (Command × ℚ) × Animation :=
  if a.command_pool.length < 1 then
    ([], a.stop)
  else
    let r := stepGo delta_time a.command_pool
    (r.1, consume { a with command_pool := r.2 })

/-- Iterated `step`: one call per frame delta, concatenating the emissions. -/
def stepMany (a : Animation) : List ℚ → List (Command × ℚ) × Animation
  | [] => ([], a)
  | d :: ds =>
    let r := a.step d
    let r2 := r.2.stepMany ds
    (r.1 ++ r2.1, r2.2)

/-- Total duration carried by a pool (or emitted list). -/
def listTotal (l : List (Command × ℚ)) : ℚ := (l.map Prod.snd).sum

end Animation

/-- The `Configuration` struct of `src/model_pos/config.rs`: exactly the four
speed fields.  (Its caller `src/model_pos/mod.rs` additionally reads a
`command_list` field that this struct does not declare — see the claim about
the configuration schema.) -/
structure Configuration where
  base_speed : ℚ
  rotation_speed : ℚ
  circle_speed : ℚ
  scale_speed : ℚ
  deriving DecidableEq, Repr

namespace Configuration

/-- Rust `Configuration::default()` (`BASE_SPEED = 8`, `ROTATION_SPEED = 30`,
`CIRCLE_SPEED = 60`, `SCALE_SPEED = 2`). -/
def default : Configuration := ⟨8, 30, 60, 2⟩

end Configuration

/-- A JSON value, sufficient to model the config files `serde_json` parses. -/
inductive JsonValue
  | num (q : ℚ)
  | str (s : String)
  | arr (l : List JsonValue)
  | obj (l : List (String × JsonValue))

/-- First value bound to key `k` in the field list of a JSON object. -/
def jsonLookup (l : List (String × JsonValue)) (k : String) : Option JsonValue :=
  match l with
  | [] => none
  | (k2, v) :: rest => if k2 = k then some v else jsonLookup rest k

/-- Extract a numeric field as `serde` does for an `f32` struct field: a
missing field or a non-numeric value is a deserialization error. -/
def jsonNumField (l : List (String × JsonValue)) (k : String) : Except String ℚ :=
  match jsonLookup l k with
  | some (.num q) => .ok q
  | some _ => .error ("invalid type for field " ++ k)
  | none => .error ("missing field " ++ k)

namespace Configuration

/-- Rust `serde_json` deserialization of the derived `Configuration`
(`src/model_pos/config.rs` lines 11-17): the input must be a JSON object, the
four `f32` speed fields are required, and — as for any serde derive without
`deny_unknown_fields` — every other field is ignored.  This is the
deserializer `Configuration::from_path` applies to the file contents. -/
def fromJson (j : JsonValue) : Except String Configuration :=
  match j with
  | .obj fields => do
    let bs ← jsonNumField fields "base_speed"
    let rs ← jsonNumField fields "rotation_speed"
    let cs ← jsonNumField fields "circle_speed"
    let ss ← jsonNumField fields "scale_speed"
    pure ⟨bs, rs, cs, ss⟩
  | _ => .error "invalid type: expected struct Configuration"

end Configuration

/-- One spline key of the `splines` crate as the repository uses it: a sample
parameter and a control value (every key the code builds carries
`Interpolation::CatmullRom`, so the interpolation tag is omitted). -/
structure Key where
  t : ℚ
  value : Vec3
  deriving DecidableEq, Repr

/-- Rust `CurveControl` (`src/model_pos/curve.rs`). -/
structure CurveControl where
  step : ℚ
  should_reset : Bool
  direction : Movement
  spline : List Key
  deriving DecidableEq, Repr

namespace CurveControl

/-- Rust `TIME` constant of `curve.rs`. -/
def TIME : ℚ := 2

/-- Rust `MAIN_DEVIATION` constant of `curve.rs`. -/
def MAIN_DEVIATION : ℚ := 8

/-- Rust `AUX_DEVIATION` constant of `curve.rs`. -/
def AUX_DEVIATION : ℚ := 4

/-- Rust `CurveControl::default()`. -/
def default : CurveControl :=
  { step := TIME, should_reset := true, direction := .ForwardX, spline := [] }

/-- The key list `CurveControl::new_spline` installs: anchored twice at `p0`
(parameters `-99.9` and `0`), three offset control points `p1, p2, p3`
computed from the direction and the deviation constants, with `p3` duplicated
at `99.9`. -/
def splineKeys (p0 : Vec3) (direction : Movement) : List Key :=
  let p1 : Vec3 := match direction with
    | .ForwardX => ⟨p0.x + MAIN_DEVIATION * (333/1000), p0.y + AUX_DEVIATION, p0.z⟩
    | .BackwardX => ⟨p0.x - MAIN_DEVIATION * (333/1000), p0.y + AUX_DEVIATION, p0.z⟩
    | .ForwardY => ⟨p0.x + AUX_DEVIATION, p0.y + MAIN_DEVIATION * (333/1000), p0.z⟩
    | .BackwardY => ⟨p0.x + AUX_DEVIATION, p0.y - MAIN_DEVIATION * (333/1000), p0.z⟩
    | .ForwardZ => ⟨p0.x, p0.y + AUX_DEVIATION, p0.z + MAIN_DEVIATION * (333/1000)⟩
    | .BackwardZ => ⟨p0.x, p0.y + AUX_DEVIATION, p0.z - MAIN_DEVIATION * (333/1000)⟩
  let p2 : Vec3 := match direction with
    | .ForwardX => ⟨p0.x + MAIN_DEVIATION * (666/1000), p0.y - AUX_DEVIATION, p0.z⟩
    | .BackwardX => ⟨p0.x - MAIN_DEVIATION * (666/1000), p0.y - AUX_DEVIATION, p0.z⟩
    | .ForwardY => ⟨p0.x - AUX_DEVIATION, p0.y + MAIN_DEVIATION * (666/1000), p0.z⟩
    | .BackwardY => ⟨p0.x - AUX_DEVIATION, p0.y - MAIN_DEVIATION * (666/1000), p0.z⟩
    | .ForwardZ => ⟨p0.x, p0.y - AUX_DEVIATION, p0.z + MAIN_DEVIATION * (666/1000)⟩
    | .BackwardZ => ⟨p0.x, p0.y - AUX_DEVIATION, p0.z - MAIN_DEVIATION * (666/1000)⟩
  let p3 : Vec3 := match direction with
    | .ForwardX => ⟨p0.x + MAIN_DEVIATION, p0.y, p0.z⟩
    | .BackwardX => ⟨p0.x - MAIN_DEVIATION, p0.y, p0.z⟩
    | .ForwardY => ⟨p0.x, p0.y + MAIN_DEVIATION, p0.z⟩
    | .BackwardY => ⟨p0.x, p0.y - MAIN_DEVIATION, p0.z⟩
    | .ForwardZ => ⟨p0.x, p0.y, p0.z + MAIN_DEVIATION⟩
    | .BackwardZ => ⟨p0.x, p0.y, p0.z - MAIN_DEVIATION⟩
  [ ⟨-(999/10), p0⟩,
    ⟨0, p0⟩,
    ⟨TIME * (333/1000), p1⟩,
    ⟨TIME * (666/1000), p2⟩,
    ⟨TIME, p3⟩,
    ⟨999/10, p3⟩ ]

/-- Rust `CurveControl::new_spline`: reset the clock and the rebuild flag, record
the direction, and install the fresh key list. -/
def new_spline (_cc : CurveControl) (p0 : Vec3) (direction : Movement) : CurveControl :=
  { step := 0, should_reset := false, direction := direction,
    spline := splineKeys p0 direction }

/-- Rust `CurveControl::slide`.  The `Spline::sample` routine of the `splines` crate is external
to the repository, so it is taken as a parameter `sample` (from a key list and
a parameter value to an optional sampled point); `unwrap_or(p0)` becomes
`Option.getD`.  Returns the sampled position and the post-call state. -/
def slide (sample : List Key → ℚ → Option Vec3) (cc : CurveControl)
    (p0 : Vec3) (direction : Movement) (delta_time : ℚ) : Vec3 × CurveControl :=
  let cc1 :=
    if cc.should_reset || decide (TIME ≤ cc.step) || decide (cc.direction ≠ direction) then
      cc.new_spline p0 direction
    else cc
  let cc2 := { cc1 with step := cc1.step + delta_time }
  ((sample cc2.spline cc2.step).getD p0, cc2)

/-- Rust `CurveControl::reset`. -/
def reset (cc : CurveControl) : CurveControl := { cc with should_reset := true }

end CurveControl

/-- A 4x4 rational matrix, modelling `cgmath::Matrix4<f32>` (with the usual
mathematical `M * v` column-vector action cgmath implements). -/
abbrev Mat4 := Matrix (Fin 4) (Fin 4) ℚ

namespace Mat4

/-- Rust `Matrix4::from_translation(t)`. -/
def from_translation (t : Vec3) : Mat4 :=
  !![1, 0, 0, t.x;
     0, 1, 0, t.y;
     0, 0, 1, t.z;
     0, 0, 0, 1]

/-- Rust `Matrix4::from(q)` for a quaternion `q` (cgmath converts through
`Matrix3::from(q)`, whose columns are built from the doubled products
`x2 = x + x`, `xx2 = x2 * x`, ... exactly as below). -/
def from_quat (q : Quat) : Mat4 :=
  let x := q.v.x
  let y := q.v.y
  let z := q.v.z
  let s := q.s
  !![1 - 2*y*y - 2*z*z, 2*x*y - 2*s*z,     2*x*z + 2*s*y,     0;
     2*x*y + 2*s*z,     1 - 2*x*x - 2*z*z, 2*y*z - 2*s*x,     0;
     2*x*z - 2*s*y,     2*y*z + 2*s*x,     1 - 2*x*x - 2*y*y, 0;
     0,                 0,                 0,                 1]

/-- Rust `Matrix4::from_scale(s)` (uniform scale, homogeneous 1). -/
def from_scale (s : ℚ) : Mat4 :=
  !![s, 0, 0, 0;
     0, s, 0, 0;
     0, 0, s, 0;
     0, 0, 0, 1]

/-- Homogeneous point `(v, 1)`. -/
def homog (v : Vec3) : Fin 4 → ℚ := ![v.x, v.y, v.z, 1]

end Mat4

/-- Rust `ModelPosition` (`src/model_pos/mod.rs`). -/
structure ModelPosition where
  orientation : Quat
  translation : Vec3
  scale : ℚ
  is_selected : Bool
  config : Configuration
  curve : CurveControl
  animation : Animation
  debug_pressed : Bool
  deriving DecidableEq, Repr

namespace ModelPosition

/-- Rust `ModelPosition::default()`. -/
def default : ModelPosition :=
  { orientation := Quat.from_sv 1 ⟨0, 0, 0⟩,
    translation := ⟨0, 0, 0⟩,
    scale := 1,
    is_selected := false,
    config := Configuration.default,
    curve := CurveControl.default,
    animation := { is_running := false, command_pool := [] },
    debug_pressed := false }

/-- Rust `ModelPosition::matrix()`: `tmat * omat * smat`. -/
def matrix (m : ModelPosition) : Mat4 :=
  let tmat := Mat4.from_translation m.translation
  let omat := Mat4.from_quat m.orientation
  let smat := Mat4.from_scale m.scale
  tmat * omat * smat

/-- Rust `ModelPosition::scale_up`. -/
def scale_up (m : ModelPosition) (delta_time : ℚ) : ModelPosition :=
  { m with scale := m.scale + m.config.scale_speed * delta_time }

/-- Rust `ModelPosition::scale_down`. -/
def scale_down (m : ModelPosition) (delta_time : ℚ) : ModelPosition :=
  { m with scale := m.scale - m.config.scale_speed * delta_time }

/-- Rust `ModelPosition::slide`: move the translation along the chosen axis by
`base_speed * delta_time`, then `curve.reset()`. -/
def slide (m : ModelPosition) (direction : Movement) (delta_time : ℚ) : ModelPosition :=
  let step := m.config.base_speed * delta_time
  let t := m.translation
  let t2 : Vec3 := match direction with
    | .ForwardX => { t with x := t.x + step }
    | .BackwardX => { t with x := t.x - step }
    | .ForwardY => { t with y := t.y + step }
    | .BackwardY => { t with y := t.y - step }
    | .ForwardZ => { t with z := t.z + step }
    | .BackwardZ => { t with z := t.z - step }
  { m with translation := t2, curve := m.curve.reset }

/-- The six-way `match` shared by `rotate` and `rotate_around`: the rotation
quaternion for `direction`, with `(c, s)` the cosine/sine pair of half the
step angle (for the `Backward` arms the source negates the angle, which
negates the sine and keeps the cosine). -/
def directionQuat (c s : ℚ) (direction : Movement) : Quat :=
  match direction with
  | .ForwardX => Quat.from_angle_x c s
  | .BackwardX => Quat.from_angle_x c (-s)
  | .ForwardY => Quat.from_angle_y c s
  | .BackwardY => Quat.from_angle_y c (-s)
  | .ForwardZ => Quat.from_angle_z c s
  | .BackwardZ => Quat.from_angle_z c (-s)

/-- Rust `ModelPosition::rotate`: compose the step rotation onto `orientation` in
the local frame (`orientation = orientation * rot`).  `(c, s)` abstracts the
half-angle cosine/sine of `Deg(config.rotation_speed * delta_time)`.  The
curve controller is not touched. -/
def rotate (m : ModelPosition) (c s : ℚ) (direction : Movement) : ModelPosition :=
  { m with orientation := m.orientation * directionQuat c s direction }

/-- Rust `ModelPosition::rotate_around`: `translation = rot * (translation - p) + p`
followed by `curve.reset()`.  `(c, s)` abstracts the half-angle cosine/sine of
`Deg(config.circle_speed * delta_time)`. -/
def rotate_around (m : ModelPosition) (c s : ℚ) (direction : Movement) (p : Vec3) :
    ModelPosition :=
  let rot := directionQuat c s direction
  { m with translation := rot.rotate_vector (m.translation - p) + p,
           curve := m.curve.reset }

/-- Rust `ModelPosition::look_at`: `dir = p - translation`;
`rot = Quaternion::look_at(-dir, up)` (an external cgmath routine, taken as
the parameter `qlook`); then the handedness correction
`rot = Quaternion::from_sv(rot.s, -rot.v)` and an unconditional snap
`orientation = rot`.  `delta_time` is deliberately unused by the source. -/
def look_at (qlook : Vec3 → Vec3 → Quat) (m : ModelPosition)
    (p up : Vec3) (_delta_time : ℚ) : ModelPosition :=
  let dir := p - m.translation
  let rot := qlook (-dir) up
  let rot2 := Quat.from_sv rot.s (-rot.v)
  { m with orientation := rot2 }

/-- Rust `ModelPosition::slide_curve`: delegate to `CurveControl::slide` and store
the sampled point as the new translation. -/
def slide_curve (sample : List Key → ℚ → Option Vec3) (m : ModelPosition)
    (direction : Movement) (delta_time : ℚ) : ModelPosition :=
  let r := m.curve.slide sample m.translation direction delta_time
  { m with translation := r.1, curve := r.2 }

end ModelPosition

/-- Rust `Camera` (`src/camera.rs`). -/
structure Camera where
  zoom : ℚ
  sensitivity : ℚ
  model_pos : ModelPosition
  debug_pressed : Bool
  deriving DecidableEq, Repr

namespace Camera

/-- Rust `Camera::default()` (`ZOOM = 45`, `SENSITIVITY = 0.005`). -/
def default : Camera :=
  { zoom := 45, sensitivity := 5/1000,
    model_pos := ModelPosition.default, debug_pressed := false }

/-- Rust `Camera::process_mouse_scroll`: subtract `yoffset` while the zoom is in
`[1, 45]`, then clamp below at 1 and above at 45, in that order. -/
def process_mouse_scroll (cam : Camera) (yoffset : ℚ) : Camera :=
  let c1 :=
    if 1 ≤ cam.zoom ∧ cam.zoom ≤ 45 then { cam with zoom := cam.zoom - yoffset } else cam
  let c2 := if c1.zoom ≤ 1 then { c1 with zoom := (1 : ℚ) } else c1
  if 45 ≤ c2.zoom then { c2 with zoom := (45 : ℚ) } else c2

end Camera

/-! Concrete instances used to evaluate the definitions on explicit inputs. -/

/-- A `ModelPosition` whose curve controller is mid-flight: its rebuild flag
is lowered, as after a `slide_curve` call that built a spline. -/
def mpMidCurve : ModelPosition :=
  { ModelPosition.default with
      curve := { CurveControl.default with should_reset := false } }

/-- A `ModelPosition` with a distinctive non-identity orientation. -/
def mpOriented : ModelPosition :=
  { ModelPosition.default with orientation := ⟨0, ⟨1, 0, 0⟩⟩ }

/-- A stand-in for the external cgmath `Quaternion::look_at` routine, fixed at
the identity rotation; any concrete function in its place exercises
the control flow of `ModelPosition.look_at`. -/
def qlookId : Vec3 → Vec3 → Quat := fun _ _ => ⟨1, ⟨0, 0, 0⟩⟩

/-- A stand-in sampling function for the external `Spline::sample`: always
undefined, which exercises the `unwrap_or(p0)` fallback. -/
def sampleNone : List Key → ℚ → Option Vec3 := fun _ _ => none

/-- A config JSON object carrying the four speed fields and a
`command_list` script, as the schema of the spec prescribes. -/
def cfgJsonFull : JsonValue :=
  .obj [("base_speed", .num 4), ("rotation_speed", .num 15),
        ("circle_speed", .num 30), ("scale_speed", .num 2),
        ("command_list", .arr [.arr [.str "ScaleU", .num 1]])]

/-- Same as `cfgJsonFull` with the `command_list` field removed. -/
def cfgJsonNoList : JsonValue :=
  .obj [("base_speed", .num 4), ("rotation_speed", .num 15),
        ("circle_speed", .num 30), ("scale_speed", .num 2)]

/-- A config JSON object missing the required `base_speed` field. -/
def cfgJsonMissing : JsonValue :=
  .obj [("rotation_speed", .num 15), ("circle_speed", .num 30),
        ("scale_speed", .num 2)]

/-- The three-command script of the own `steps` unit test of the repository. -/
def aniSteps : Animation :=
  ⟨true, [(Command.ScaleU, 1/2), (Command.SlideXF, 1/2), (Command.SlideZB, 1/2)]⟩

/-- A running animation holding a single one-second command. -/
def aniSingle : Animation := ⟨true, [(Command.ScaleU, 1)]⟩

/-! ### Helper lemmas about the animation queue walk -/

namespace Animation

theorem listTotal_nil : listTotal [] = 0 := rfl

theorem listTotal_cons (c : Command) (t : ℚ) (l : List (Command × ℚ)) :
    listTotal ((c, t) :: l) = t + listTotal l := by
  simp [listTotal]

theorem listTotal_append (l1 l2 : List (Command × ℚ)) :
    listTotal (l1 ++ l2) = listTotal l1 + listTotal l2 := by
  simp [listTotal]

theorem listTotal_nonneg (l : List (Command × ℚ)) (h : ∀ x ∈ l, 0 ≤ x.2) :
    0 ≤ listTotal l := by
  refine List.sum_nonneg ?_
  intro q hq
  obtain ⟨x, hx, rfl⟩ := List.mem_map.mp hq
  exact h x hx

theorem entry_le_total (l : List (Command × ℚ)) (h : ∀ x ∈ l, 0 ≤ x.2) :
    ∀ x ∈ l, x.2 ≤ listTotal l := by
  induction l with
  | nil => intro x hx; cases hx
  | cons y rest ih =>
    obtain ⟨c, t⟩ := y
    intro x hx
    rw [listTotal_cons]
    have hRnn : 0 ≤ listTotal rest :=
      listTotal_nonneg rest (fun z hz => h z (List.mem_cons_of_mem _ hz))
    have h0 : 0 ≤ t := h (c, t) (List.mem_cons_self _ _)
    rcases List.mem_cons.mp hx with rfl | hx2
    · show t ≤ t + listTotal rest
      linarith
    · have := ih (fun z hz => h z (List.mem_cons_of_mem _ hz)) x hx2
      linarith

/-- Unconditional conservation: one queue walk splits the total queue
duration between the emitted list and the remaining pool. -/
theorem stepGo_split (delta : ℚ) (pool : List (Command × ℚ)) :
    listTotal (stepGo delta pool).1 + listTotal (stepGo delta pool).2
      = listTotal pool := by
  induction pool generalizing delta with
  | nil => simp [stepGo, listTotal]
  | cons y rest ih =>
    obtain ⟨c, t⟩ := y
    by_cases hle : delta ≤ t
    · have hgo : stepGo delta ((c, t) :: rest)
          = ([(c, delta)], (c, t - delta) :: rest) := by
        simp [stepGo, hle]
      rw [hgo]
      show listTotal [(c, delta)] + listTotal ((c, t - delta) :: rest)
          = listTotal ((c, t) :: rest)
      rw [listTotal_cons, listTotal_cons, listTotal_cons, listTotal_nil]
      ring
    · have hgo : stepGo delta ((c, t) :: rest)
          = ((c, t) :: (stepGo (delta - t) rest).1,
             (c, 0) :: (stepGo (delta - t) rest).2) := by
        simp [stepGo, hle]
      rw [hgo]
      show listTotal ((c, t) :: (stepGo (delta - t) rest).1)
            + listTotal ((c, 0) :: (stepGo (delta - t) rest).2)
          = listTotal ((c, t) :: rest)
      rw [listTotal_cons, listTotal_cons, listTotal_cons]
      have := ih (delta - t)
      linarith

/-- With a nonnegative pool and a positive budget, the emitted durations of
one queue walk sum to `min delta (total)`. -/
theorem stepGo_sum (delta : ℚ) (pool : List (Command × ℚ))
    (hd : 0 < delta) (hp : ∀ x ∈ pool, 0 ≤ x.2) :
    listTotal (stepGo delta pool).1 = min delta (listTotal pool) := by
  induction pool generalizing delta with
  | nil =>
    show listTotal [] = min delta (listTotal [])
    rw [listTotal_nil, min_eq_right (le_of_lt hd)]
  | cons y rest ih =>
    obtain ⟨c, t⟩ := y
    have hrest : ∀ x ∈ rest, 0 ≤ x.2 :=
      fun z hz => hp z (List.mem_cons_of_mem _ hz)
    have hRnn : 0 ≤ listTotal rest := listTotal_nonneg rest hrest
    by_cases hle : delta ≤ t
    · have hgo : (stepGo delta ((c, t) :: rest)).1 = [(c, delta)] := by
        simp [stepGo, hle]
      have hdle : delta ≤ listTotal ((c, t) :: rest) := by
        rw [listTotal_cons]; linarith
      rw [hgo, min_eq_left hdle]
      show delta + listTotal [] = delta
      rw [listTotal_nil]; ring
    · push_neg at hle
      have hd2 : 0 < delta - t := by linarith
      have hih := ih (delta - t) hd2 hrest
      have hgo : (stepGo delta ((c, t) :: rest)).1
          = (c, t) :: (stepGo (delta - t) rest).1 := by
        simp [stepGo, not_le.mpr hle]
      rw [hgo, listTotal_cons, hih, listTotal_cons]
      rcases le_total (delta - t) (listTotal rest) with h1 | h1
      · rw [min_eq_left h1, min_eq_left (by linarith)]
        ring
      · rw [min_eq_right h1, min_eq_right (by linarith)]

/-- Each emitted entry carries the command of its queue entry, a nonnegative
allotment, and never more than the remaining duration of that entry. -/
theorem stepGo_bounds (delta : ℚ) (pool : List (Command × ℚ))
    (hd : 0 < delta) (hp : ∀ x ∈ pool, 0 ≤ x.2) :
    List.Forall₂ (fun (e q : Command × ℚ) => e.1 = q.1 ∧ 0 ≤ e.2 ∧ e.2 ≤ q.2)
      (stepGo delta pool).1 (pool.take (stepGo delta pool).1.length) := by
  induction pool generalizing delta with
  | nil =>
    show List.Forall₂ _ ([] : List (Command × ℚ)) _
    exact List.Forall₂.nil
  | cons y rest ih =>
    obtain ⟨c, t⟩ := y
    have hrest : ∀ x ∈ rest, 0 ≤ x.2 :=
      fun z hz => hp z (List.mem_cons_of_mem _ hz)
    by_cases hle : delta ≤ t
    · have hgo : (stepGo delta ((c, t) :: rest)).1 = [(c, delta)] := by
        simp [stepGo, hle]
      rw [hgo]
      exact List.Forall₂.cons ⟨rfl, le_of_lt hd, hle⟩ List.Forall₂.nil
    · push_neg at hle
      have ht0 : 0 ≤ t := hp (c, t) (List.mem_cons_self _ _)
      have hih := ih (delta - t) (by linarith) hrest
      have hgo : (stepGo delta ((c, t) :: rest)).1
          = (c, t) :: (stepGo (delta - t) rest).1 := by
        simp [stepGo, not_le.mpr hle]
      rw [hgo]
      exact List.Forall₂.cons ⟨rfl, ht0, le_refl t⟩ hih

/-- The pool left by a queue walk over a nonnegative pool stays
nonnegative. -/
theorem stepGo_rest_nonneg (delta : ℚ) (pool : List (Command × ℚ))
    (hp : ∀ x ∈ pool, 0 ≤ x.2) :
    ∀ x ∈ (stepGo delta pool).2, 0 ≤ x.2 := by
  induction pool generalizing delta with
  | nil => intro x hx; cases hx
  | cons y rest ih =>
    obtain ⟨c, t⟩ := y
    have hrest : ∀ x ∈ rest, 0 ≤ x.2 :=
      fun z hz => hp z (List.mem_cons_of_mem _ hz)
    by_cases hle : delta ≤ t
    · have hgo : (stepGo delta ((c, t) :: rest)).2 = (c, t - delta) :: rest := by
        simp [stepGo, hle]
      rw [hgo]
      intro x hx
      rcases List.mem_cons.mp hx with rfl | hx2
      · show (0 : ℚ) ≤ t - delta
        linarith
      · exact hrest x hx2
    · have hgo : (stepGo delta ((c, t) :: rest)).2
          = (c, 0) :: (stepGo (delta - t) rest).2 := by
        simp [stepGo, hle]
      rw [hgo]
      intro x hx
      rcases List.mem_cons.mp hx with rfl | hx2
      · show (0 : ℚ) ≤ 0
        exact le_refl 0
      · exact ih (delta - t) hrest x hx2

/-- If the budget covers the whole (nonnegative) pool, every entry of the
remaining pool is exhausted (nonpositive). -/
theorem stepGo_rest_nonpos (delta : ℚ) (pool : List (Command × ℚ))
    (hp : ∀ x ∈ pool, 0 ≤ x.2) (htot : listTotal pool ≤ delta) :
    ∀ x ∈ (stepGo delta pool).2, x.2 ≤ 0 := by
  induction pool generalizing delta with
  | nil => intro x hx; cases hx
  | cons y rest ih =>
    obtain ⟨c, t⟩ := y
    have hrest : ∀ x ∈ rest, 0 ≤ x.2 :=
      fun z hz => hp z (List.mem_cons_of_mem _ hz)
    have hRnn : 0 ≤ listTotal rest := listTotal_nonneg rest hrest
    rw [listTotal_cons] at htot
    by_cases hle : delta ≤ t
    · have hgo : (stepGo delta ((c, t) :: rest)).2 = (c, t - delta) :: rest := by
        simp [stepGo, hle]
      rw [hgo]
      intro x hx
      rcases List.mem_cons.mp hx with rfl | hx2
      · show t - delta ≤ (0 : ℚ)
        linarith
      · have := entry_le_total rest hrest x hx2
        linarith
    · have hgo : (stepGo delta ((c, t) :: rest)).2
          = (c, 0) :: (stepGo (delta - t) rest).2 := by
        simp [stepGo, hle]
      rw [hgo]
      intro x hx
      rcases List.mem_cons.mp hx with rfl | hx2
      · show (0 : ℚ) ≤ 0
        exact le_refl 0
      · exact ih (delta - t) hrest (by linarith) x hx2

/-- Purging exhausted entries keeps the total of a nonnegative pool. -/
theorem filter_pos_total (l : List (Command × ℚ)) (h : ∀ x ∈ l, 0 ≤ x.2) :
    listTotal (l.filter (fun x => decide (0 < x.2))) = listTotal l := by
  induction l with
  | nil => rfl
  | cons y rest ih =>
    have hrest : ∀ x ∈ rest, 0 ≤ x.2 :=
      fun z hz => h z (List.mem_cons_of_mem _ hz)
    by_cases hy : 0 < y.2
    · rw [List.filter_cons_of_pos (by simpa using hy), listTotal_cons,
        listTotal_cons, ih hrest]
    · have hy0 : y.2 = 0 :=
        le_antisymm (not_lt.mp hy) (h y (List.mem_cons_self _ _))
      rw [List.filter_cons_of_neg (by simpa using hy), listTotal_cons, hy0,
        ih hrest]
      ring

/-- A filter for positive durations over an exhausted pool leaves nothing. -/
theorem filter_pos_nil (l : List (Command × ℚ)) (h : ∀ x ∈ l, x.2 ≤ 0) :
    l.filter (fun x => decide (0 < x.2)) = [] := by
  induction l with
  | nil => rfl
  | cons y rest ih =>
    rw [List.filter_cons_of_neg (by simpa using not_lt.mpr (h y (List.mem_cons_self _ _)))]
    exact ih (fun z hz => h z (List.mem_cons_of_mem _ hz))

theorem step_of_empty (a : Animation) (delta : ℚ) (h : a.command_pool = []) :
    a.step delta = ([], a.stop) := by
  simp [step, h]

theorem step_of_nonempty (a : Animation) (delta : ℚ) (h : a.command_pool ≠ []) :
    a.step delta
      = ((stepGo delta a.command_pool).1,
         consume { a with command_pool := (stepGo delta a.command_pool).2 }) := by
  have : ¬ a.command_pool.length < 1 := by
    simpa [Nat.lt_one_iff, List.length_eq_zero] using h
  simp [step, this]

/-- One `step` call emits exactly `min delta (total remaining)` seconds. -/
theorem step_sum (a : Animation) (delta : ℚ) (hd : 0 < delta)
    (hp : ∀ x ∈ a.command_pool, 0 ≤ x.2) :
    listTotal (a.step delta).1 = min delta (listTotal a.command_pool) := by
  by_cases h : a.command_pool = []
  · rw [step_of_empty a delta h, h]
    show listTotal [] = min delta (listTotal [])
    rw [listTotal_nil, min_eq_right (le_of_lt hd)]
  · rw [step_of_nonempty a delta h]
    exact stepGo_sum delta a.command_pool hd hp

/-- After any `step` call, every surviving pool entry is strictly positive. -/
theorem step_pool_pos (a : Animation) (delta : ℚ) :
    ∀ x ∈ (a.step delta).2.command_pool, 0 < x.2 := by
  by_cases h : a.command_pool = []
  · rw [step_of_empty a delta h]
    intro x hx; cases hx
  · rw [step_of_nonempty a delta h]
    intro x hx
    have := (List.mem_filter.mp hx).2
    exact of_decide_eq_true this

/-- After one `step` call the pool total drops by exactly the emitted time. -/
theorem step_pool_total (a : Animation) (delta : ℚ) (hd : 0 < delta)
    (hp : ∀ x ∈ a.command_pool, 0 ≤ x.2) :
    listTotal (a.step delta).2.command_pool
      = listTotal a.command_pool - min delta (listTotal a.command_pool) := by
  by_cases h : a.command_pool = []
  · rw [step_of_empty a delta h, h]
    show listTotal [] = listTotal [] - min delta (listTotal [])
    rw [listTotal_nil, min_eq_right (le_of_lt hd)]
    ring
  · rw [step_of_nonempty a delta h]
    show listTotal ((stepGo delta a.command_pool).2.filter
        (fun x => decide (0 < x.2))) = _
    rw [filter_pos_total _ (stepGo_rest_nonneg delta a.command_pool hp)]
    have hsplit := stepGo_split delta a.command_pool
    have hsum := stepGo_sum delta a.command_pool hd hp
    linarith

/-- A budget at least the whole (nonnegative) remaining duration empties the
queue in that same `step` call. -/
theorem step_pool_nil_of_total_le (a : Animation) (delta : ℚ)
    (hp : ∀ x ∈ a.command_pool, 0 ≤ x.2)
    (htot : listTotal a.command_pool ≤ delta) :
    (a.step delta).2.command_pool = [] := by
  by_cases h : a.command_pool = []
  · rw [step_of_empty a delta h]
    rfl
  · rw [step_of_nonempty a delta h]
    exact filter_pos_nil _ (stepGo_rest_nonpos delta a.command_pool hp htot)

/-- Rust `step` turns `is_running` off exactly when the pool was already empty
when the call began; otherwise it leaves the flag untouched. -/
theorem step_running (a : Animation) (delta : ℚ) :
    (a.step delta).2.is_running
      = if a.command_pool = [] then false else a.is_running := by
  by_cases h : a.command_pool = []
  · rw [step_of_empty a delta h, if_pos h]
    rfl
  · rw [step_of_nonempty a delta h, if_neg h]
    rfl

theorem stepMany_cons (a : Animation) (d : ℚ) (ds : List ℚ) :
    a.stepMany (d :: ds)
      = ((a.step d).1 ++ ((a.step d).2.stepMany ds).1,
         ((a.step d).2.stepMany ds).2) := rfl

/-- Multi-frame playback over a strictly positive queue: positive frame
deltas summing to at most the total duration emit exactly their sum, keep
every surviving entry positive, and leave exactly the unconsumed duration. -/
theorem stepMany_props (deltas : List ℚ) :
    ∀ (a : Animation), (∀ d ∈ deltas, 0 < d) →
    (∀ x ∈ a.command_pool, 0 < x.2) →
    deltas.sum ≤ listTotal a.command_pool →
    listTotal (a.stepMany deltas).1 = deltas.sum ∧
    (∀ x ∈ (a.stepMany deltas).2.command_pool, 0 < x.2) ∧
    listTotal (a.stepMany deltas).2.command_pool
      = listTotal a.command_pool - deltas.sum := by
  induction deltas with
  | nil =>
    intro a _ hp _
    refine ⟨rfl, hp, ?_⟩
    show listTotal a.command_pool = listTotal a.command_pool - List.sum []
    rw [List.sum_nil]
    ring
  | cons d ds ih =>
    intro a hds hp hsum
    have hd : 0 < d := hds d (List.mem_cons_self _ _)
    have hds2 : ∀ z ∈ ds, 0 < z := fun z hz => hds z (List.mem_cons_of_mem _ hz)
    have hdsnn : 0 ≤ ds.sum := List.sum_nonneg (fun z hz => le_of_lt (hds2 z hz))
    rw [List.sum_cons] at hsum
    have hpnn : ∀ x ∈ a.command_pool, 0 ≤ x.2 := fun z hz => le_of_lt (hp z hz)
    have hdD : d ≤ listTotal a.command_pool := by linarith
    have hstep1 : listTotal (a.step d).1 = d := by
      rw [step_sum a d hd hpnn, min_eq_left hdD]
    have hpos1 := step_pool_pos a d
    have htot1 : listTotal (a.step d).2.command_pool
        = listTotal a.command_pool - d := by
      rw [step_pool_total a d hd hpnn, min_eq_left hdD]
    have hih := ih (a.step d).2 hds2 hpos1 (by rw [htot1]; linarith)
    refine ⟨?_, ?_, ?_⟩
    · rw [stepMany_cons, listTotal_append, hstep1, hih.1, List.sum_cons]
    · rw [stepMany_cons]
      exact hih.2.1
    · rw [stepMany_cons, hih.2.2, htot1, List.sum_cons]
      ring

/-- A pool of strictly positive entries is empty exactly when its total
duration is zero. -/
theorem pos_pool_empty_iff (l : List (Command × ℚ)) (h : ∀ x ∈ l, 0 < x.2) :
    l = [] ↔ listTotal l = 0 := by
  cases l with
  | nil => simp [listTotal_nil]
  | cons y rest =>
    obtain ⟨c, t⟩ := y
    have ht : 0 < t := h (c, t) (List.mem_cons_self _ _)
    have hRnn : 0 ≤ listTotal rest :=
      listTotal_nonneg rest (fun z hz => le_of_lt (h z (List.mem_cons_of_mem _ hz)))
    constructor
    · intro hfalse; cases hfalse
    · intro h0
      rw [listTotal_cons] at h0
      linarith

end Animation

/-! ### Helper lemmas about the quaternion rotation action -/

namespace Vec3

theorem add_def (a b : Vec3) : a + b = ⟨a.x + b.x, a.y + b.y, a.z + b.z⟩ := rfl

theorem sub_def (a b : Vec3) : a - b = ⟨a.x - b.x, a.y - b.y, a.z - b.z⟩ := rfl

theorem neg_def (a : Vec3) : -a = ⟨-a.x, -a.y, -a.z⟩ := rfl

end Vec3

namespace Quat

/-- The optimized cgmath rotation action written out in coordinates. -/
theorem rotate_vector_coords (q : Quat) (v : Vec3) :
    q.rotate_vector v
      = ⟨v.x + 2 * (q.v.y * (q.v.x * v.y - q.v.y * v.x + q.s * v.z)
            - q.v.z * (q.v.z * v.x - q.v.x * v.z + q.s * v.y)),
         v.y + 2 * (q.v.z * (q.v.y * v.z - q.v.z * v.y + q.s * v.x)
            - q.v.x * (q.v.x * v.y - q.v.y * v.x + q.s * v.z)),
         v.z + 2 * (q.v.x * (q.v.z * v.x - q.v.x * v.z + q.s * v.y)
            - q.v.y * (q.v.y * v.z - q.v.z * v.y + q.s * v.x))⟩ := by
  obtain ⟨s, ⟨w1, w2, w3⟩⟩ := q
  obtain ⟨v1, v2, v3⟩ := v
  show Vec3.mk _ _ _ = Vec3.mk _ _ _
  simp only [rotate_vector, Vec3.cross, Vec3.smul, Vec3.add_def]
  rw [Vec3.mk.injEq]
  refine ⟨by ring, by ring, by ring⟩

/-- The rotation action of a unit quaternion preserves the squared norm. -/
theorem rotate_vector_norm2 (q : Quat) (v : Vec3)
    (h : q.s * q.s + q.v.norm2 = 1) :
    (q.rotate_vector v).norm2 = v.norm2 := by
  obtain ⟨s, ⟨w1, w2, w3⟩⟩ := q
  obtain ⟨v1, v2, v3⟩ := v
  simp only [Vec3.norm2, Vec3.dot] at h ⊢
  rw [rotate_vector_coords]
  simp only [Vec3.norm2, Vec3.dot]
  linear_combination
    (4 * ((w1 ^ 2 + w2 ^ 2 + w3 ^ 2) * (v1 ^ 2 + v2 ^ 2 + v3 ^ 2)
      - (w1 * v1 + w2 * v2 + w3 * v3) ^ 2)) * h

end Quat

/-! ### The claims -/

/-- C1 counterexample. The unrestricted claim "no emitted duration is
negative" fails on `Animation::step`: a queue whose entry carries a negative
remaining duration is emitted with that negative allotment. -/
theorem animation_negative_emission :
    ((⟨true, [(Command.ScaleU, -1)]⟩ : Animation).step 1).1
        = [(Command.ScaleU, -1)] ∧ (-1 : ℚ) < 0 := by
  refine ⟨?_, by norm_num⟩
  rw [Animation.step_of_nonempty _ _ (by simp)]
  show (Animation.stepGo 1 [(Command.ScaleU, -1)]).1 = _
  norm_num [Animation.stepGo]

/-- C1 (amended to queues of nonnegative remaining durations; with
negative entries the code emits negative allotments, see the counterexample).
One `step(delta_time)` call with `delta_time > 0` on a queue of nonnegative
durations emits durations summing to exactly
`min delta_time (total remaining)`, each emitted entry repeating its queue
command of its entry with an allotment between `0` and the remaining
duration; and successive `step` calls with positive deltas summing to
`S ≤ D` over a positive-duration queue emit total time exactly `S`, the
queue being empty afterwards exactly when `S = D`. -/
theorem animation_time_conservation :
    (∀ (a : Animation) (delta : ℚ), 0 < delta →
      (∀ x ∈ a.command_pool, 0 ≤ x.2) →
      Animation.listTotal (a.step delta).1
          = min delta (Animation.listTotal a.command_pool) ∧
      List.Forall₂ (fun (e q : Command × ℚ) => e.1 = q.1 ∧ 0 ≤ e.2 ∧ e.2 ≤ q.2)
        (a.step delta).1 (a.command_pool.take (a.step delta).1.length)) ∧
    (∀ (a : Animation) (deltas : List ℚ), (∀ d ∈ deltas, 0 < d) →
      (∀ x ∈ a.command_pool, 0 < x.2) →
      deltas.sum ≤ Animation.listTotal a.command_pool →
      Animation.listTotal (a.stepMany deltas).1 = deltas.sum ∧
      ((a.stepMany deltas).2.command_pool = []
        ↔ deltas.sum = Animation.listTotal a.command_pool)) := by
  constructor
  · intro a delta hd hp
    refine ⟨Animation.step_sum a delta hd hp, ?_⟩
    by_cases h : a.command_pool = []
    · rw [Animation.step_of_empty a delta h, h]
      exact List.Forall₂.nil
    · rw [Animation.step_of_nonempty a delta h]
      exact Animation.stepGo_bounds delta a.command_pool hd hp
  · intro a deltas hds hp hsum
    obtain ⟨hemit, hpos, htot⟩ := Animation.stepMany_props deltas a hds hp hsum
    refine ⟨hemit, ?_⟩
    rw [Animation.pos_pool_empty_iff _ hpos, htot]
    constructor
    · intro h0; linarith
    · intro h0; rw [h0]; ring

/-- Witness for C1: the test script of the repository itself,
`[(ScaleU, 0.5), (SlideXF, 0.5), (SlideZB, 0.5)]` stepped by `0.1`, and by
the frame sequence `[0.1, 0.3]`. -/
theorem animation_time_conservation_witness :
    (Animation.listTotal (aniSteps.step (1/10)).1
        = min (1/10) (Animation.listTotal aniSteps.command_pool) ∧
      List.Forall₂ (fun (e q : Command × ℚ) => e.1 = q.1 ∧ 0 ≤ e.2 ∧ e.2 ≤ q.2)
        (aniSteps.step (1/10)).1
        (aniSteps.command_pool.take (aniSteps.step (1/10)).1.length)) ∧
    (Animation.listTotal (aniSteps.stepMany [1/10, 3/10]).1 = [(1:ℚ)/10, 3/10].sum ∧
      ((aniSteps.stepMany [1/10, 3/10]).2.command_pool = []
        ↔ [(1:ℚ)/10, 3/10].sum = Animation.listTotal aniSteps.command_pool)) :=
  ⟨animation_time_conservation.1 aniSteps (1/10) (by norm_num)
     (by intro x hx; simp [aniSteps] at hx; rcases hx with rfl | rfl | rfl <;> norm_num),
   animation_time_conservation.2 aniSteps [1/10, 3/10]
     (by intro d hd; simp at hd; rcases hd with rfl | rfl <;> norm_num)
     (by intro x hx; simp [aniSteps] at hx; rcases hx with rfl | rfl | rfl <;> norm_num)
     (by norm_num [aniSteps, Animation.listTotal])⟩

/-- C2 counterexample. A `step` call that consumes the whole remaining
duration of the last entry does NOT lower `is_running` in that same call: the
queue is empty yet the flag is still raised. -/
theorem animation_running_lag :
    (aniSingle.step 1).2.is_running = true ∧
    (aniSingle.step 1).2.command_pool = [] := by
  have h1 : aniSingle.step 1 = ([(Command.ScaleU, 1)], ⟨true, []⟩) := by
    rw [Animation.step_of_nonempty _ _ (by simp [aniSingle])]
    show (_, Animation.consume ⟨true, (Animation.stepGo 1 [(Command.ScaleU, 1)]).2⟩) = _
    norm_num [Animation.stepGo, Animation.consume]
  rw [h1]
  exact ⟨rfl, rfl⟩

/-- C2 (amended: `is_running` lags the queue by one call).  After
`Animation::start` on a non-running player the flag is raised and the queue
is exactly the given script (so the iff holds right after `start` only for a
non-empty script); after `Animation::step` the flag is false iff the queue
was empty when the call began — in particular a call whose budget covers the
whole remaining (nonnegative) duration leaves an empty queue with the flag
still raised, and only the following `step` call emits nothing and lowers
it. -/
theorem animation_running_sync :
    (∀ (a : Animation) (cmds : List (Command × ℚ)), a.is_running = false →
      (a.start cmds).is_running = true ∧ (a.start cmds).command_pool = cmds) ∧
    (∀ (a : Animation) (delta : ℚ),
      (a.step delta).2.is_running
        = if a.command_pool = [] then false else a.is_running) ∧
    (∀ (a : Animation) (delta : ℚ), (∀ x ∈ a.command_pool, 0 ≤ x.2) →
      Animation.listTotal a.command_pool ≤ delta →
      (a.step delta).2.command_pool = [] ∧
      ∀ delta2 : ℚ, ((a.step delta).2.step delta2).1 = [] ∧
        ((a.step delta).2.step delta2).2.is_running = false) := by
  refine ⟨?_, Animation.step_running, ?_⟩
  · intro a cmds h
    rw [Animation.start, h]
    exact ⟨rfl, rfl⟩
  · intro a delta hp htot
    have hnil := Animation.step_pool_nil_of_total_le a delta hp htot
    refine ⟨hnil, ?_⟩
    intro delta2
    rw [Animation.step_of_empty _ delta2 hnil]
    exact ⟨rfl, rfl⟩

/-- Witness for C2: starting the single-command script on a fresh player and
consuming it in one one-second step. -/
theorem animation_running_sync_witness :
    (((⟨false, []⟩ : Animation).start [(Command.ScaleU, 1)]).is_running = true ∧
      ((⟨false, []⟩ : Animation).start [(Command.ScaleU, 1)]).command_pool
        = [(Command.ScaleU, 1)]) ∧
    (aniSingle.step 1).2.command_pool = [] ∧
    ((aniSingle.step 1).2.step 5).1 = [] ∧
    ((aniSingle.step 1).2.step 5).2.is_running = false :=
  ⟨animation_running_sync.1 ⟨false, []⟩ [(Command.ScaleU, 1)] rfl,
   (animation_running_sync.2.2 aniSingle 1
     (by intro x hx; simp [aniSingle] at hx; subst hx; norm_num)
     (by norm_num [aniSingle, Animation.listTotal])).1,
   ((animation_running_sync.2.2 aniSingle 1
     (by intro x hx; simp [aniSingle] at hx; subst hx; norm_num)
     (by norm_num [aniSingle, Animation.listTotal])).2 5).1,
   ((animation_running_sync.2.2 aniSingle 1
     (by intro x hx; simp [aniSingle] at hx; subst hx; norm_num)
     (by norm_num [aniSingle, Animation.listTotal])).2 5).2⟩

/-- C10. A front queue entry with nonpositive remaining duration `t` is
still emitted once, as `(command, t)`, before being purged: the walk takes
the else-branch (since `delta_time > 0 ≥ t`), passes the grown budget
`delta_time - t` to the rest of the queue, zeroes the entry, and only then
`consume` filters it out of the surviving pool. -/
theorem nonpositive_entry_emitted (a : Animation) (c : Command) (t : ℚ)
    (rest : List (Command × ℚ)) (delta : ℚ)
    (hpool : a.command_pool = (c, t) :: rest) (ht : t ≤ 0) (hd : 0 < delta) :
    (a.step delta).1 = (c, t) :: (Animation.stepGo (delta - t) rest).1 ∧
    (a.step delta).2.command_pool
      = ((Animation.stepGo (delta - t) rest).2).filter
          (fun x => decide (0 < x.2)) := by
  have hne : a.command_pool ≠ [] := by
    rw [hpool]; exact List.cons_ne_nil _ _
  rw [Animation.step_of_nonempty a delta hne, hpool]
  have hnle : ¬ delta ≤ t := by linarith
  have hgo : Animation.stepGo delta ((c, t) :: rest)
      = ((c, t) :: (Animation.stepGo (delta - t) rest).1,
         (c, 0) :: (Animation.stepGo (delta - t) rest).2) := by
    simp [Animation.stepGo, hnle]
  constructor
  · show (Animation.stepGo delta ((c, t) :: rest)).1 = _
    rw [hgo]
  · show ((Animation.stepGo delta ((c, t) :: rest)).2).filter
        (fun x => decide (0 < x.2)) = _
    rw [hgo]
    exact List.filter_cons_of_neg (by simp)

/-- Witness for C10: a script whose first entry carries `-1` seconds,
stepped with a one-second frame. -/
theorem nonpositive_entry_emitted_witness :
    ((⟨true, [(Command.ScaleU, -1), (Command.SlideXF, 2)]⟩ : Animation).step 1).1
        = (Command.ScaleU, (-1 : ℚ))
            :: (Animation.stepGo (1 - (-1)) [(Command.SlideXF, 2)]).1 ∧
    ((⟨true, [(Command.ScaleU, -1), (Command.SlideXF, 2)]⟩ : Animation).step 1).2.command_pool
        = ((Animation.stepGo (1 - (-1)) [(Command.SlideXF, 2)]).2).filter
            (fun x => decide (0 < x.2)) :=
  nonpositive_entry_emitted _ Command.ScaleU (-1) [(Command.SlideXF, 2)] 1 rfl
    (by norm_num) (by norm_num)

/-- C3. The `Configuration` struct of `config.rs` deserializes only the
four speed fields: a JSON object carrying the `command_list` script of the spec
parses to exactly the same configuration as one without it (the script is
discarded — the struct has no field to hold it, although
`ModelPosition::process_input` in `mod.rs` reads `self.config.command_list`),
while a missing required speed field is a hard deserialization error. -/
theorem configuration_lacks_command_list :
    Configuration.fromJson cfgJsonFull = .ok ⟨4, 15, 30, 2⟩ ∧
    Configuration.fromJson cfgJsonFull = Configuration.fromJson cfgJsonNoList ∧
    Configuration.fromJson cfgJsonMissing = .error "missing field base_speed" :=
  ⟨rfl, rfl, rfl⟩

/-- When the rebuild condition of `CurveControl::slide` holds, the call
reduces to: build the fresh spline from `p0`, restart the clock at zero, add
the frame delta, and sample the new spline. -/
theorem slide_rebuild_eq (sample : List Key → ℚ → Option Vec3)
    (cc : CurveControl) (p0 : Vec3) (direction : Movement) (delta_time : ℚ)
    (hcond : (cc.should_reset || decide (CurveControl.TIME ≤ cc.step)
        || decide (cc.direction ≠ direction)) = true) :
    cc.slide sample p0 direction delta_time
      = ((sample (CurveControl.splineKeys p0 direction) delta_time).getD p0,
         { step := delta_time, should_reset := false, direction := direction,
           spline := CurveControl.splineKeys p0 direction }) := by
  unfold CurveControl.slide
  rw [hcond]
  simp [CurveControl.new_spline]

/-- C4. Whenever the rebuild flag is set, or the stored elapsed time has
reached `TIME = 2`, or the requested direction differs from the stored one,
`CurveControl::slide(p0, direction, delta_time)` discards the previous curve
entirely: the post-call state holds exactly the fresh spline anchored at `p0`
(whose keys at parameters `-99.9` and `0` both equal `p0`) with the elapsed
clock restarted at `0` and then advanced to `delta_time`, and the returned
position is that new spline sampled at `delta_time` (falling back to `p0`
when the sample is undefined). -/
theorem curve_rebuild (sample : List Key → ℚ → Option Vec3)
    (cc : CurveControl) (p0 : Vec3) (direction : Movement) (delta_time : ℚ)
    (h : cc.should_reset = true ∨ CurveControl.TIME ≤ cc.step
        ∨ cc.direction ≠ direction) :
    (cc.slide sample p0 direction delta_time).2
        = { step := delta_time, should_reset := false, direction := direction,
            spline := CurveControl.splineKeys p0 direction } ∧
    (CurveControl.splineKeys p0 direction).take 2
        = [⟨-(999/10), p0⟩, ⟨0, p0⟩] ∧
    (cc.slide sample p0 direction delta_time).1
        = (sample (CurveControl.splineKeys p0 direction) delta_time).getD p0 := by
  have hcond : (cc.should_reset || decide (CurveControl.TIME ≤ cc.step)
      || decide (cc.direction ≠ direction)) = true := by
    rcases h with h | h | h <;> simp [h]
  rw [slide_rebuild_eq sample cc p0 direction delta_time hcond]
  exact ⟨rfl, rfl, rfl⟩

/-- Witness for C4: the default controller (rebuild flag raised) sliding
forward along X from the origin. -/
theorem curve_rebuild_witness :
    ((CurveControl.default.slide sampleNone Vec3.zero Movement.ForwardX 1).2
        = { step := 1, should_reset := false, direction := Movement.ForwardX,
            spline := CurveControl.splineKeys Vec3.zero Movement.ForwardX } ∧
      (CurveControl.splineKeys Vec3.zero Movement.ForwardX).take 2
        = [⟨-(999/10), Vec3.zero⟩, ⟨0, Vec3.zero⟩] ∧
      (CurveControl.default.slide sampleNone Vec3.zero Movement.ForwardX 1).1
        = (sampleNone (CurveControl.splineKeys Vec3.zero Movement.ForwardX) 1).getD
            Vec3.zero) :=
  curve_rebuild sampleNone CurveControl.default Vec3.zero Movement.ForwardX 1
    (Or.inl rfl)

/-- C5 counterexample. `ModelPosition::look_at` contains no degenerate
check: with the target equal to the current translation (direction zero) the
orientation is still overwritten — here from `⟨0, (1,0,0)⟩` to the adjusted
value of the external look rotation — so the call is not a no-op. -/
theorem look_at_zero_dir_not_noop :
    (ModelPosition.look_at qlookId mpOriented ⟨0, 0, 0⟩ ⟨0, 1, 0⟩ 1).orientation
        ≠ mpOriented.orientation ∧
    ((⟨0, 0, 0⟩ : Vec3) - mpOriented.translation) = ⟨0, 0, 0⟩ := by
  constructor
  · intro hEq
    have : (1 : ℚ) = 0 := congrArg Quat.s hEq
    norm_num at this
  · show Vec3.sub ⟨0, 0, 0⟩ ⟨0, 0, 0⟩ = ⟨0, 0, 0⟩
    rw [Vec3.sub]
    norm_num

/-- C5 (amended: there is no zero-direction guard).  `look_at` always
snaps the orientation to the corrected external look rotation computed from
`-(target - translation)` and `up` — a value independent of the previous
orientation — leaving translation and scale untouched; in particular two
poses sharing a translation get identical orientations from the same call,
so the degenerate case is not left unchanged. -/
theorem look_at_overwrites (qlook : Vec3 → Vec3 → Quat) (m : ModelPosition)
    (p up : Vec3) (dt : ℚ) :
    (ModelPosition.look_at qlook m p up dt).orientation
        = Quat.from_sv (qlook (-(p - m.translation)) up).s
            (-(qlook (-(p - m.translation)) up).v) ∧
    (ModelPosition.look_at qlook m p up dt).translation = m.translation ∧
    (ModelPosition.look_at qlook m p up dt).scale = m.scale ∧
    ∀ m2 : ModelPosition, m2.translation = m.translation →
      (ModelPosition.look_at qlook m2 p up dt).orientation
        = (ModelPosition.look_at qlook m p up dt).orientation := by
  refine ⟨rfl, rfl, rfl, ?_⟩
  intro m2 h
  simp only [ModelPosition.look_at, h]

/-- Witness for the amended statement of C5, at the identity-valued stand-in for
the external look rotation. -/
theorem look_at_overwrites_witness :
    (ModelPosition.look_at qlookId ModelPosition.default ⟨1, 2, 3⟩ ⟨0, 1, 0⟩ 1).orientation
        = Quat.from_sv
            (qlookId (-((⟨1, 2, 3⟩ : Vec3) - ModelPosition.default.translation)) ⟨0, 1, 0⟩).s
            (-(qlookId (-((⟨1, 2, 3⟩ : Vec3) - ModelPosition.default.translation)) ⟨0, 1, 0⟩).v) ∧
    (ModelPosition.look_at qlookId mpOriented ⟨1, 2, 3⟩ ⟨0, 1, 0⟩ 1).orientation
        = (ModelPosition.look_at qlookId ModelPosition.default ⟨1, 2, 3⟩ ⟨0, 1, 0⟩ 1).orientation :=
  ⟨(look_at_overwrites qlookId ModelPosition.default ⟨1, 2, 3⟩ ⟨0, 1, 0⟩ 1).1,
   (look_at_overwrites qlookId ModelPosition.default ⟨1, 2, 3⟩ ⟨0, 1, 0⟩ 1).2.2.2
     mpOriented rfl⟩

/-- C6 counterexample. `ModelPosition::rotate` does not set the curve
rebuild flag of the curve controller: on a pose whose flag is lowered, it stays
lowered. -/
theorem rotate_does_not_reset_curve :
    (mpMidCurve.rotate 1 0 Movement.ForwardX).curve.should_reset = false := rfl

/-- C6 (amended: only `slide` and `rotate_around` reset the curve).
`slide` and `rotate_around` raise the rebuild flag, while `rotate`,
`look_at`, `scale_up` and `scale_down` leave the whole curve controller
(including the flag) untouched. -/
theorem motion_primitives_reset_flags :
    (∀ (m : ModelPosition) (dir : Movement) (dt : ℚ),
      (m.slide dir dt).curve.should_reset = true) ∧
    (∀ (m : ModelPosition) (c s : ℚ) (dir : Movement) (p : Vec3),
      (m.rotate_around c s dir p).curve.should_reset = true) ∧
    (∀ (m : ModelPosition) (c s : ℚ) (dir : Movement),
      (m.rotate c s dir).curve = m.curve) ∧
    (∀ (qlook : Vec3 → Vec3 → Quat) (m : ModelPosition) (p up : Vec3) (dt : ℚ),
      (ModelPosition.look_at qlook m p up dt).curve = m.curve) ∧
    (∀ (m : ModelPosition) (dt : ℚ), (m.scale_up dt).curve = m.curve) ∧
    (∀ (m : ModelPosition) (dt : ℚ), (m.scale_down dt).curve = m.curve) :=
  ⟨fun _ _ _ => rfl, fun _ _ _ _ _ => rfl, fun _ _ _ _ => rfl,
   fun _ _ _ _ _ => rfl, fun _ _ => rfl, fun _ _ => rfl⟩

/-- C7. `rotate_around(direction, p, delta_time)` preserves the squared
distance from the pivot `p`, for every pose, direction and pivot; `(c, s)`
ranges over all genuine cosine/sine pairs of the half rotation angle, i.e.
satisfies `c² + s² = 1`. -/
theorem orbit_distance_preserved (c s : ℚ) (h : c ^ 2 + s ^ 2 = 1)
    (m : ModelPosition) (direction : Movement) (p : Vec3) :
    ((m.rotate_around c s direction p).translation - p).norm2
      = (m.translation - p).norm2 := by
  have hcancel : ∀ w : Vec3, w + p - p = w := by
    intro w
    obtain ⟨wx, wy, wz⟩ := w
    obtain ⟨px, py, pz⟩ := p
    rw [Vec3.add_def, Vec3.sub_def, Vec3.mk.injEq]
    refine ⟨by ring, by ring, by ring⟩
  have key : ∀ q : Quat, q.s * q.s + q.v.norm2 = 1 →
      (q.rotate_vector (m.translation - p) + p - p).norm2
        = (m.translation - p).norm2 := by
    intro q hq
    rw [hcancel]
    exact Quat.rotate_vector_norm2 q _ hq
  cases direction
  case ForwardX =>
    exact key (Quat.from_angle_x c s)
      (by simp only [Quat.from_angle_x, Vec3.norm2, Vec3.dot]; linear_combination h)
  case BackwardX =>
    exact key (Quat.from_angle_x c (-s))
      (by simp only [Quat.from_angle_x, Vec3.norm2, Vec3.dot]; linear_combination h)
  case ForwardY =>
    exact key (Quat.from_angle_y c s)
      (by simp only [Quat.from_angle_y, Vec3.norm2, Vec3.dot]; linear_combination h)
  case BackwardY =>
    exact key (Quat.from_angle_y c (-s))
      (by simp only [Quat.from_angle_y, Vec3.norm2, Vec3.dot]; linear_combination h)
  case ForwardZ =>
    exact key (Quat.from_angle_z c s)
      (by simp only [Quat.from_angle_z, Vec3.norm2, Vec3.dot]; linear_combination h)
  case BackwardZ =>
    exact key (Quat.from_angle_z c (-s))
      (by simp only [Quat.from_angle_z, Vec3.norm2, Vec3.dot]; linear_combination h)

/-- Witness for C7 at the Pythagorean pair `(3/5, 4/5)`. -/
theorem orbit_distance_preserved_witness :
    ((ModelPosition.default.rotate_around (3/5) (4/5) Movement.ForwardY
        ⟨1, 0, 0⟩).translation - ⟨1, 0, 0⟩).norm2
      = (ModelPosition.default.translation - (⟨1, 0, 0⟩ : Vec3)).norm2 :=
  orbit_distance_preserved (3/5) (4/5) (by norm_num) ModelPosition.default
    Movement.ForwardY ⟨1, 0, 0⟩

/-- C8. `ModelPosition::matrix()` is the product
translation · rotation · scale in exactly that order, and consequently acts
on a homogeneous point by scaling first, then rotating, then translating. -/
theorem matrix_composition (m : ModelPosition) :
    m.matrix = Mat4.from_translation m.translation * Mat4.from_quat m.orientation
        * Mat4.from_scale m.scale ∧
    ∀ v : Vec3, m.matrix.mulVec (Mat4.homog v)
        = Mat4.homog (m.translation
            + m.orientation.rotate_vector (v.smul m.scale)) := by
  refine ⟨rfl, ?_⟩
  intro v
  obtain ⟨q, t, sc, sel, cfg, curve, ani, dbg⟩ := m
  obtain ⟨qs, ⟨qx, qy, qz⟩⟩ := q
  obtain ⟨tx, ty, tz⟩ := t
  obtain ⟨vx, vy, vz⟩ := v
  funext i
  fin_cases i <;>
    · simp [ModelPosition.matrix, Mat4.from_translation, Mat4.from_quat,
        Mat4.from_scale, Mat4.homog, Matrix.mulVec, Matrix.dotProduct,
        Matrix.mul_apply, Fin.sum_univ_four, Quat.rotate_vector, Vec3.cross,
        Vec3.smul, Vec3.add_def]
      try ring

/-- C9. Starting from a zoom in `[1, 45]`, `Camera::process_mouse_scroll`
subtracts `yoffset` and clamps the result back into `[1, 45]`: the final zoom
is `min 45 (max 1 (zoom - yoffset))`, hence still within the interval. -/
theorem camera_fov_clamp (cam : Camera) (yoffset : ℚ)
    (h1 : 1 ≤ cam.zoom) (h2 : cam.zoom ≤ 45) :
    1 ≤ (cam.process_mouse_scroll yoffset).zoom ∧
    (cam.process_mouse_scroll yoffset).zoom ≤ 45 ∧
    (cam.process_mouse_scroll yoffset).zoom
      = min 45 (max 1 (cam.zoom - yoffset)) := by
  have hmain : (cam.process_mouse_scroll yoffset).zoom
      = min 45 (max 1 (cam.zoom - yoffset)) := by
    simp only [Camera.process_mouse_scroll]
    rw [if_pos (And.intro h1 h2)]
    split_ifs with ha hb hc
    · have hb2 : (45 : ℚ) ≤ 1 := hb
      norm_num at hb2
    · have ha2 : cam.zoom - yoffset ≤ 1 := ha
      show (1 : ℚ) = min 45 (max 1 (cam.zoom - yoffset))
      rw [max_eq_left ha2, min_eq_right (by norm_num : (1 : ℚ) ≤ 45)]
    · have ha2 : ¬ (cam.zoom - yoffset ≤ 1) := ha
      have hc2 : (45 : ℚ) ≤ cam.zoom - yoffset := hc
      push_neg at ha2
      show (45 : ℚ) = min 45 (max 1 (cam.zoom - yoffset))
      rw [max_eq_right (by linarith : (1 : ℚ) ≤ cam.zoom - yoffset),
        min_eq_left hc2]
    · have ha2 : ¬ (cam.zoom - yoffset ≤ 1) := ha
      have hc2 : ¬ ((45 : ℚ) ≤ cam.zoom - yoffset) := hc
      push_neg at ha2 hc2
      show cam.zoom - yoffset = min 45 (max 1 (cam.zoom - yoffset))
      rw [max_eq_right (by linarith : (1 : ℚ) ≤ cam.zoom - yoffset),
        min_eq_right (by linarith : cam.zoom - yoffset ≤ 45)]
  refine ⟨?_, ?_, hmain⟩
  · rw [hmain]
    exact le_min (by norm_num) (le_max_left 1 _)
  · rw [hmain]
    exact min_le_left 45 _

/-- Witness for C9: the default camera (zoom 45) scrolled past the lower
clamp. -/
theorem camera_fov_clamp_witness :
    1 ≤ (Camera.default.process_mouse_scroll 50).zoom ∧
    (Camera.default.process_mouse_scroll 50).zoom ≤ 45 ∧
    (Camera.default.process_mouse_scroll 50).zoom
      = min 45 (max 1 (Camera.default.zoom - 50)) :=
  camera_fov_clamp Camera.default 50 (by norm_num [Camera.default])
    (by norm_num [Camera.default])

end CG
